import Mathlib

/-!
# Verification of `bandit_simulations.py`

A shallow embedding of the multi-armed-bandit simulation program
(`bandit_simulations.py`) and proofs about it.

Modelling conventions:
* numpy float arrays become `List ℚ` (the program's arithmetic on the
  values the claims touch is exact: sums of `1.0` increments, divisions,
  comparisons);
* the process-wide uniform random source becomes an explicit tape
  (`ℕ → ℚ` for `np.random.rand`, `ℕ → ℕ` streams for `np.random.randint`);
* the external numeric collaborators `np.sqrt`, `np.log` and `pm.rbeta`
  become oracle function parameters;
* the unbounded `while` resampling loop of `epsilon_greedy` is modelled
  with explicit fuel, returning `none` when the fuel is exhausted.

The file is organized as: all definitions first, then all theorems.
-/

namespace Bandit

/-- Per-arm Beta parameters `(successes, failures)`: the K×2
`estimated_beta_params` array, one pair per arm. -/
abbrev BeliefState := List (ℚ × ℚ)

/-! ## `np.argmax` / `np.argmin`

`np.argmax` returns the index of the first occurrence of the maximum:
the scan below only moves when it sees a strictly larger value. -/

/-- Scan the tail of the list, current best index `best` with value
`bestVal`, next index to examine `i`.  Moves only on strict improvement,
so ties are broken by first occurrence, as `np.argmax` does. -/
def argmaxFrom : ℕ → ℚ → ℕ → List ℚ → ℕ
  | best, _, _, [] => best
  | best, bestVal, i, x :: xs =>
    if bestVal < x then argmaxFrom i x (i + 1) xs
    else argmaxFrom best bestVal (i + 1) xs

/-- Index of the first maximal element (`np.argmax`); `0` on `[]`. -/
def argmax : List ℚ → ℕ
  | [] => 0
  | x :: xs => argmaxFrom 0 x 1 xs

/-- Same scan for `np.argmin`. -/
def argminFrom : ℕ → ℚ → ℕ → List ℚ → ℕ
  | best, _, _, [] => best
  | best, bestVal, i, x :: xs =>
    if x < bestVal then argminFrom i x (i + 1) xs
    else argminFrom best bestVal (i + 1) xs

/-- Index of the first minimal element (`np.argmin`); `0` on `[]`. -/
def argmin : List ℚ → ℕ
  | [] => 0
  | x :: xs => argminFrom 0 x 1 xs

/-! ## The belief-state derived arrays

Every estimating policy starts from the same three numpy expressions:
`totals = estimated_beta_params.sum(1)`,
`successes = estimated_beta_params[:,0]`,
`estimated_means = successes/totals`. -/

/-- `estimated_beta_params.sum(1)`: per-arm total (successes + failures). -/
def totalsOf (estimated_beta_params : BeliefState) : List ℚ :=
  estimated_beta_params.map (fun p => p.1 + p.2)

/-- `estimated_beta_params[:,0]`: per-arm success count. -/
def successesOf (estimated_beta_params : BeliefState) : List ℚ :=
  estimated_beta_params.map Prod.fst

/-- `successes/totals`: per-arm empirical mean. -/
def estimatedMeans (estimated_beta_params : BeliefState) : List ℚ :=
  List.zipWith (· / ·) (successesOf estimated_beta_params) (totalsOf estimated_beta_params)

/-! ## The six policies -/

/-- `thompson_sampling`: one Beta sample per arm
(`pm.rbeta(params[:,0], params[:,1])`, modelled by the oracle `rbeta`),
then `np.argmax`. -/
def thompson_sampling (rbeta : ℚ → ℚ → ℚ) (estimated_beta_params : BeliefState) : ℕ :=
  argmax (estimated_beta_params.map (fun p => rbeta p.1 p.2))

/-- `random`: `np.random.randint(0, len(estimated_beta_params))`;
`randint n` models one call of `np.random.randint(0, n)`. -/
def random (randint : ℕ → ℕ) (estimated_beta_params : BeliefState) : ℕ :=
  randint estimated_beta_params.length

/-- `naive`: explore the least-pulled arm while any per-arm total is below
`number_to_explore`, else commit to the best empirical mean. -/
def naive (estimated_beta_params : BeliefState) (number_to_explore : ℚ) : ℕ :=
  let totals := totalsOf estimated_beta_params
  if totals.any (fun t => decide (t < number_to_explore)) then
    argmin totals
  else
    argmax (estimatedMeans estimated_beta_params)

/-- The `while other_choice == best_mean` resampling loop of
`epsilon_greedy`: `randInts` is the stream of `np.random.randint(0, K)`
draws, `pos` the next draw to consume, `fuel` bounds the iterations
(`none` = the loop has not terminated within `fuel` draws). -/
def egLoop (randInts : ℕ → ℕ) (best_mean : ℕ) : ℕ → ℕ → Option ℕ
  | _, 0 => none
  | pos, fuel + 1 =>
    let other_choice := randInts pos
    if other_choice = best_mean then egLoop randInts best_mean (pos + 1) fuel
    else some other_choice

/-- `epsilon_greedy`: `randR` models the `np.random.rand()` draw deciding
exploration; on exploration the resampling loop picks a random arm other
than the current best mean. -/
def epsilon_greedy (estimated_beta_params : BeliefState) (epsilon : ℚ)
    (randR : ℚ) (randInts : ℕ → ℕ) (fuel : ℕ) : Option ℕ :=
  let best_mean := argmax (estimatedMeans estimated_beta_params)
  if randR < epsilon then
    egLoop randInts best_mean 0 fuel
  else some best_mean

/-- `UCB` (UCB1-TUNED): `sq` and `lg` are the external `np.sqrt` / `np.log`
collaborators; `t` is `estimated_beta_params.sum()`, the sum of the whole
matrix. -/
def UCB (sq lg : ℚ → ℚ) (estimated_beta_params : BeliefState) : ℕ :=
  let t := (totalsOf estimated_beta_params).sum
  let totals := totalsOf estimated_beta_params
  let estimated_means := estimatedMeans estimated_beta_params
  argmax (List.zipWith
    (fun m tot => m + sq (min (m - m ^ 2 + sq (2 * lg t / tot)) (1/4) * lg t / tot))
    estimated_means totals)

/-- `UCB_bernoulli`: fixed 95% confidence interval, `mean + 1.96·sqrt(var/total)`. -/
def UCB_bernoulli (sq : ℚ → ℚ) (estimated_beta_params : BeliefState) : ℕ :=
  let totals := totalsOf estimated_beta_params
  let estimated_means := estimatedMeans estimated_beta_params
  argmax (List.zipWith
    (fun m tot => m + (196/100) * sq ((m - m ^ 2) / tot))
    estimated_means totals)

/-- The UCB1-TUNED per-arm score exactly as the specification words it:
`mean + sqrt(min(variance + sqrt(2·ln(t)/n_k), 0.25) · ln(t)/n_k)` with
`variance = mean − mean²`, `n_k` the arm's total from the belief state and
`t` the total over all arms.  Stated from the spec's sentence, to be
compared against `UCB`. -/
def ucbTunedSpecScores (sq lg : ℚ → ℚ) (bs : BeliefState) : List ℚ :=
  let t := (totalsOf bs).sum
  bs.map (fun p =>
    let n_k := p.1 + p.2
    let mean := p.1 / n_k
    let variance := mean - mean ^ 2
    mean + sq (min (variance + sq (2 * lg t / n_k)) (1/4) * (lg t / n_k)))

/-! ## The episode runner `run_bandit_dynamic_alg` -/

/-- In-place update of entry `i` (`estimated_beta_params[i] = f _`);
out-of-range indices leave the list unchanged. -/
def updateNth {α : Type} : List α → ℕ → (α → α) → List α
  | [], _, _ => []
  | x :: xs, 0, f => f x :: xs
  | x :: xs, n + 1, f => x :: updateNth xs n f

/-- Pull one lever and update the belief state (the
"update parameters" block of the round-`i` loop body):
success increments column 0, failure column 1, of the chosen arm's row. -/
def pullStep (true_rewards : List (List Bool)) (choice_func : ℕ → BeliefState → ℕ)
    (i : ℕ) (bs : BeliefState) : BeliefState :=
  let this_choice := choice_func i bs
  updateNth bs this_choice (fun p =>
    if (true_rewards.getD i []).getD this_choice false then (p.1 + 1, p.2)
    else (p.1, p.2 + 1))

/-- Belief state after the first `n` rounds of the episode loop. -/
def beliefsAfter (true_rewards : List (List Bool)) (choice_func : ℕ → BeliefState → ℕ)
    (bs0 : BeliefState) : ℕ → BeliefState
  | 0 => bs0
  | n + 1 => pullStep true_rewards choice_func n (beliefsAfter true_rewards choice_func bs0 n)

/-- `estimated_beta_params` seeding: `zeros((K,2))` plus `prior_a = prior_b = 1.0`. -/
def initialBeliefs (K : ℕ) : BeliefState := List.replicate K (1, 1)

/-- The arm the policy chooses in round `i` of an episode started from the
prior. -/
def choiceAt (true_rewards : List (List Bool)) (choice_func : ℕ → BeliefState → ℕ)
    (K i : ℕ) : ℕ :=
  choice_func i (beliefsAfter true_rewards choice_func (initialBeliefs K) i)

/-- Number of rounds among the first `n` in which arm `k` was pulled. -/
def pullCount (true_rewards : List (List Bool)) (choice_func : ℕ → BeliefState → ℕ)
    (K k n : ℕ) : ℕ :=
  ((List.range n).filter (fun j => choiceAt true_rewards choice_func K j = k)).length

/-- `np.max(CTRs_that_generated_data, 0)`: columnwise maximum. -/
def colMax : List (List ℚ) → List ℚ
  | [] => []
  | [r] => r
  | r :: rs => List.zipWith max r (colMax rs)

/-- `np.cumsum` with running accumulator. -/
def cumsumFrom (acc : ℚ) : List ℚ → List ℚ
  | [] => []
  | x :: xs => (acc + x) :: cumsumFrom (acc + x) xs

/-- `np.cumsum`. -/
def cumsum (l : List ℚ) : List ℚ := cumsumFrom 0 l

/-- The per-round body of `run_bandit_dynamic_alg`'s loop, iterated from
round `i` for `fuel` rounds: returns the chosen arms, the per-round
classical expected regret (`regret`) and the per-round realized ±1 signal
(`god_regret`), in round order. -/
def runFrom (true_rewards : List (List Bool)) (CTRs_that_generated_data : List (List ℚ))
    (choice_func : ℕ → BeliefState → ℕ) (best_val : ℚ) (best_bandit_idx : ℕ) :
    ℕ → ℕ → BeliefState → List ℕ × List ℚ × List ℚ
  | _, 0, _ => ([], [], [])
  | i, fuel + 1, bs =>
    let this_choice := choice_func i bs
    let row := true_rewards.getD i []
    let reward := row.getD this_choice false
    let regret_i := best_val - (CTRs_that_generated_data.getD i []).getD this_choice 0
    let god_i : ℚ :=
      if row.getD best_bandit_idx false = true ∧ reward = false then 1
      else if row.getD best_bandit_idx false = false ∧ reward = true then -1
      else 0
    let rest := runFrom true_rewards CTRs_that_generated_data choice_func best_val
      best_bandit_idx (i + 1) fuel (pullStep true_rewards choice_func i bs)
    (this_choice :: rest.1, regret_i :: rest.2.1, god_i :: rest.2.2)

/-- The full episode loop from the prior-seeded belief state. -/
def episodeOut (true_rewards : List (List Bool)) (CTRs_that_generated_data : List (List ℚ))
    (choice_func : ℕ → BeliefState → ℕ) : List ℕ × List ℚ × List ℚ :=
  let num_samples := true_rewards.length
  let K := (true_rewards.headD []).length
  let bandit_distri := colMax CTRs_that_generated_data
  let best_bandit_idx := argmax bandit_distri
  runFrom true_rewards CTRs_that_generated_data choice_func
    (bandit_distri.getD best_bandit_idx 0) best_bandit_idx 0 num_samples (initialBeliefs K)

/-- The chosen-arm sequence of one episode. -/
def episodeChoices (true_rewards : List (List Bool)) (CTRs : List (List ℚ))
    (choice_func : ℕ → BeliefState → ℕ) : List ℕ :=
  (episodeOut true_rewards CTRs choice_func).1

/-- `cum_regret = np.cumsum(regret)`: the classical expected-regret
sequence the loop computes and then discards. -/
def episodeRegret (true_rewards : List (List Bool)) (CTRs : List (List ℚ))
    (choice_func : ℕ → BeliefState → ℕ) : List ℚ :=
  cumsum (episodeOut true_rewards CTRs choice_func).2.1

/-- `run_bandit_dynamic_alg`: returns `god_cum_regret = np.cumsum(god_regret)`. -/
def run_bandit_dynamic_alg (true_rewards : List (List Bool))
    (CTRs_that_generated_data : List (List ℚ))
    (choice_func : ℕ → BeliefState → ℕ) : List ℚ :=
  cumsum (episodeOut true_rewards CTRs_that_generated_data choice_func).2.2

/-- The per-round realized-regret ("oracle") signal as the specification
words it: `+1` when the best arm's precomputed reward is `1` and the
chosen arm's is `0`; `-1` when the chosen arm's reward is `1` and the best
arm's is `0`; `0` otherwise. -/
def godSignal (row : List Bool) (best_bandit_idx choice : ℕ) : ℚ :=
  if row.getD best_bandit_idx false = true ∧ row.getD choice false = false then 1
  else if row.getD choice false = true ∧ row.getD best_bandit_idx false = false then -1
  else 0

/-! ## The experiment driver (main code)

The process-wide uniform source is a tape `tape : ℕ → ℚ`; `pos` is the
next tape cell a `np.random.rand` call consumes.  Draws consumed inside
the six episode runs (policy randomness) are abstracted by `consume`,
giving the number of tape cells the episode runs starting at a given
position use up. -/

/-- One call of `np.random.rand(K)` starting at tape position `pos`:
the drawn vector and the next free position. -/
def randVec (tape : ℕ → ℚ) (pos K : ℕ) : List ℚ × ℕ :=
  ((List.range K).map (fun k => tape (pos + k)), pos + K)

/-- One call of `np.random.rand(num_samples, K)` starting at `pos`. -/
def randMatrix (tape : ℕ → ℚ) (pos num_samples K : ℕ) : List (List ℚ) × ℕ :=
  ((List.range num_samples).map
      (fun i => (List.range K).map (fun k => tape (pos + i * K + k))),
   pos + num_samples * K)

/-- `generate_bernoulli_bandit_data`: fresh uniform matrix compared
entrywise against `CTRs_that_generated_data` (strict `<`). -/
def generate_bernoulli_bandit_data (tape : ℕ → ℚ) (pos num_samples K : ℕ)
    (CTRs_that_generated_data : List (List ℚ)) : List (List Bool) × ℕ :=
  let m := randMatrix tape pos num_samples K
  (List.zipWith (fun drow crow => List.zipWith (fun d c => decide (d < c)) drow crow)
      m.1 CTRs_that_generated_data,
   m.2)

/-- The experiment loop body, iterated over the remaining experiments:
`CTRs` is fixed throughout the loop (it is the module-level
`CTRs_that_generated_data`); each iteration generates one fresh reward
matrix and runs every policy against that same reward matrix and the same
`CTRs`.  Each list entry is one experiment's
(CTR matrix, reward matrix, per-policy regret sequences). -/
def driverLoop (tape : ℕ → ℚ) (num_samples K : ℕ) (CTRs : List (List ℚ))
    (policies : List (ℕ → BeliefState → ℕ)) (consume : ℕ → ℕ) :
    ℕ → ℕ → List (List (List ℚ) × List (List Bool) × List (List ℚ))
  | 0, _ => []
  | n + 1, pos =>
    let gen := generate_bernoulli_bandit_data tape pos num_samples K CTRs
    (CTRs, gen.1, policies.map (fun p => run_bandit_dynamic_alg gen.1 CTRs p)) ::
      driverLoop tape num_samples K CTRs policies consume n (gen.2 + consume pos)

/-- The whole main program:
`CTRs_that_generated_data = np.tile(np.random.rand(K), (num_samples, 1))`
is drawn once at module initialization, then the experiment loop runs. -/
def mabExperiments (tape : ℕ → ℚ) (num_samples K number_experiments : ℕ)
    (policies : List (ℕ → BeliefState → ℕ)) (consume : ℕ → ℕ) :
    List (List (List ℚ) × List (List Bool) × List (List ℚ)) :=
  let v := randVec tape 0 K
  let CTRs_that_generated_data := List.replicate num_samples v.1
  driverLoop tape num_samples K CTRs_that_generated_data policies consume
    number_experiments v.2

/-- Modelled from the spec ("generate a fresh ArmProbabilityVector and
RewardMatrix per experiment"): the experiment driver as claim C1 describes
it, drawing a fresh arm-probability vector at the start of every
experiment; this definition exists only to be compared with the code's
`mabExperiments`. -/
def freshDriverLoop (tape : ℕ → ℚ) (num_samples K : ℕ)
    (policies : List (ℕ → BeliefState → ℕ)) (consume : ℕ → ℕ) :
    ℕ → ℕ → List (List (List ℚ) × List (List Bool) × List (List ℚ))
  | 0, _ => []
  | n + 1, pos =>
    let v := randVec tape pos K
    let CTRs := List.replicate num_samples v.1
    let gen := generate_bernoulli_bandit_data tape v.2 num_samples K CTRs
    (CTRs, gen.1, policies.map (fun p => run_bandit_dynamic_alg gen.1 CTRs p)) ::
      freshDriverLoop tape num_samples K policies consume n (gen.2 + consume pos)

/-! ## Helper theorems: the argmax / argmin scans -/

theorem argmaxFrom_spec (v : ℕ → ℚ) :
    ∀ (xs : List ℚ) (best i : ℕ) (bestVal : ℚ),
      best < i → v best = bestVal →
      (∀ j, j < xs.length → xs.getD j 0 = v (i + j)) →
      (∀ j, j < best → v j < bestVal) →
      (∀ j, best < j → j < i → v j ≤ bestVal) →
      argmaxFrom best bestVal i xs < i + xs.length ∧
      bestVal ≤ v (argmaxFrom best bestVal i xs) ∧
      (∀ j, j < i + xs.length → v j ≤ v (argmaxFrom best bestVal i xs)) ∧
      (∀ j, j < argmaxFrom best bestVal i xs →
        v j < v (argmaxFrom best bestVal i xs)) := by
  intro xs
  induction xs with
  | nil =>
    intro best i bestVal hbi hv _ hlt hle
    refine ⟨by simpa [argmaxFrom] using hbi, by simp [argmaxFrom, hv], ?_, ?_⟩
    · intro j hj
      simp only [argmaxFrom]
      rcases lt_trichotomy j best with h | h | h
      · exact le_of_lt (hv ▸ hlt j h)
      · simp [h]
      · exact hv ▸ hle j h (by simpa using hj)
    · intro j hj
      simp only [argmaxFrom] at hj ⊢
      exact hv ▸ hlt j hj
  | cons x xs ih =>
    intro best i bestVal hbi hv hsuffix hlt hle
    have hx : v i = x := by
      have := hsuffix 0 (by simp)
      simpa using this.symm
    have hshift : ∀ j, j < xs.length → xs.getD j 0 = v (i + 1 + j) := by
      intro j hj
      have := hsuffix (j + 1) (by simpa using Nat.succ_lt_succ hj)
      simpa [Nat.add_assoc, Nat.add_comm 1 j] using this
    by_cases hcmp : bestVal < x
    · have h := ih i (i + 1) x (Nat.lt_succ_self i) hx hshift
        (by
          intro j hj
          rcases lt_trichotomy j best with h' | h' | h'
          · have := hlt j h'; linarith
          · subst h'; rw [hv]; exact hcmp
          · have := hle j h' hj; linarith)
        (by intro j hj₁ hj₂; omega)
      simp only [argmaxFrom, if_pos hcmp]
      have h1 := h.1
      refine ⟨?_, ?_, ?_, ?_⟩
      · simp only [List.length_cons]; omega
      · have := h.2.1; linarith
      · intro j hj
        simp only [List.length_cons] at hj
        exact h.2.2.1 j (by omega)
      · exact h.2.2.2
    · push_neg at hcmp
      have h := ih best (i + 1) bestVal (Nat.lt_succ_of_lt hbi) hv hshift hlt
        (by
          intro j hj₁ hj₂
          rcases Nat.lt_or_ge j i with h' | h'
          · exact hle j hj₁ h'
          · have hji : j = i := by omega
            subst hji; rw [hx]; exact hcmp)
      simp only [argmaxFrom, if_neg (not_lt.mpr hcmp)]
      have h1 := h.1
      refine ⟨?_, h.2.1, ?_, h.2.2.2⟩
      · simp only [List.length_cons]; omega
      · intro j hj
        simp only [List.length_cons] at hj
        exact h.2.2.1 j (by omega)

theorem argmax_spec (l : List ℚ) (hl : l ≠ []) :
    argmax l < l.length ∧
    (∀ j, j < l.length → l.getD j 0 ≤ l.getD (argmax l) 0) ∧
    (∀ j, j < argmax l → l.getD j 0 < l.getD (argmax l) 0) := by
  match l, hl with
  | x :: xs, _ =>
    have h := argmaxFrom_spec (fun j => (x :: xs).getD j 0) xs 0 1 x
      Nat.one_pos (by simp)
      (by intro j hj; simp [Nat.add_comm 1 j])
      (by intro j hj; omega)
      (by intro j hj₁ hj₂; omega)
    exact ⟨by simpa [argmax, List.length_cons, Nat.add_comm] using h.1,
      fun j hj => h.2.2.1 j (by simpa [List.length_cons, Nat.add_comm] using hj),
      fun j hj => h.2.2.2 j hj⟩

theorem argminFrom_spec (v : ℕ → ℚ) :
    ∀ (xs : List ℚ) (best i : ℕ) (bestVal : ℚ),
      best < i → v best = bestVal →
      (∀ j, j < xs.length → xs.getD j 0 = v (i + j)) →
      (∀ j, j < best → bestVal < v j) →
      (∀ j, best < j → j < i → bestVal ≤ v j) →
      argminFrom best bestVal i xs < i + xs.length ∧
      v (argminFrom best bestVal i xs) ≤ bestVal ∧
      (∀ j, j < i + xs.length → v (argminFrom best bestVal i xs) ≤ v j) ∧
      (∀ j, j < argminFrom best bestVal i xs →
        v (argminFrom best bestVal i xs) < v j) := by
  intro xs
  induction xs with
  | nil =>
    intro best i bestVal hbi hv _ hlt hle
    refine ⟨by simpa [argminFrom] using hbi, by simp [argminFrom, hv], ?_, ?_⟩
    · intro j hj
      simp only [argminFrom]
      rcases lt_trichotomy j best with h | h | h
      · exact le_of_lt (hv ▸ hlt j h)
      · simp [h]
      · exact hv ▸ hle j h (by simpa using hj)
    · intro j hj
      simp only [argminFrom] at hj ⊢
      exact hv ▸ hlt j hj
  | cons x xs ih =>
    intro best i bestVal hbi hv hsuffix hlt hle
    have hx : v i = x := by
      have := hsuffix 0 (by simp)
      simpa using this.symm
    have hshift : ∀ j, j < xs.length → xs.getD j 0 = v (i + 1 + j) := by
      intro j hj
      have := hsuffix (j + 1) (by simpa using Nat.succ_lt_succ hj)
      simpa [Nat.add_assoc, Nat.add_comm 1 j] using this
    by_cases hcmp : x < bestVal
    · have h := ih i (i + 1) x (Nat.lt_succ_self i) hx hshift
        (by
          intro j hj
          rcases lt_trichotomy j best with h' | h' | h'
          · have := hlt j h'; linarith
          · subst h'; rw [hv]; exact hcmp
          · have := hle j h' hj; linarith)
        (by intro j hj₁ hj₂; omega)
      simp only [argminFrom, if_pos hcmp]
      have h1 := h.1
      refine ⟨?_, ?_, ?_, ?_⟩
      · simp only [List.length_cons]; omega
      · have := h.2.1; linarith
      · intro j hj
        simp only [List.length_cons] at hj
        exact h.2.2.1 j (by omega)
      · exact h.2.2.2
    · push_neg at hcmp
      have h := ih best (i + 1) bestVal (Nat.lt_succ_of_lt hbi) hv hshift hlt
        (by
          intro j hj₁ hj₂
          rcases Nat.lt_or_ge j i with h' | h'
          · exact hle j hj₁ h'
          · have hji : j = i := by omega
            subst hji; rw [hx]; exact hcmp)
      simp only [argminFrom, if_neg (not_lt.mpr hcmp)]
      have h1 := h.1
      refine ⟨?_, h.2.1, ?_, h.2.2.2⟩
      · simp only [List.length_cons]; omega
      · intro j hj
        simp only [List.length_cons] at hj
        exact h.2.2.1 j (by omega)

theorem argmin_spec (l : List ℚ) (hl : l ≠ []) :
    argmin l < l.length ∧
    (∀ j, j < l.length → l.getD (argmin l) 0 ≤ l.getD j 0) ∧
    (∀ j, j < argmin l → l.getD (argmin l) 0 < l.getD j 0) := by
  match l, hl with
  | x :: xs, _ =>
    have h := argminFrom_spec (fun j => (x :: xs).getD j 0) xs 0 1 x
      Nat.one_pos (by simp)
      (by intro j hj; simp [Nat.add_comm 1 j])
      (by intro j hj; omega)
      (by intro j hj₁ hj₂; omega)
    exact ⟨by simpa [argmin, List.length_cons, Nat.add_comm] using h.1,
      fun j hj => h.2.2.1 j (by simpa [List.length_cons, Nat.add_comm] using hj),
      fun j hj => h.2.2.2 j hj⟩

/-! ## Helper theorems: lists -/

theorem zipWith_map_same {α β γ δ : Type} (f : β → γ → δ) (g : α → β) (h : α → γ) :
    ∀ l : List α, List.zipWith f (l.map g) (l.map h) = l.map (fun x => f (g x) (h x))
  | [] => rfl
  | x :: xs => by simp [List.zipWith, zipWith_map_same f g h xs]

theorem getD_map_lt {α β : Type} (g : α → β) :
    ∀ (l : List α) (j : ℕ), j < l.length → ∀ (d : β) (d' : α),
      (l.map g).getD j d = g (l.getD j d')
  | [], j, hj => by simp at hj
  | x :: xs, 0, _ => by intro d d'; simp
  | x :: xs, j + 1, hj => by
    intro d d'
    simp only [List.map_cons, List.getD_cons_succ]
    exact getD_map_lt g xs j (by simpa using hj) d d'

theorem getD_replicate_lt {α : Type} (a d : α) :
    ∀ (K k : ℕ), k < K → (List.replicate K a).getD k d = a
  | 0, k, h => by simp at h
  | K + 1, 0, _ => rfl
  | K + 1, k + 1, h => by
    simp only [List.replicate, List.getD_cons_succ]
    exact getD_replicate_lt a d K k (by omega)

theorem estimatedMeans_eq_map (bs : BeliefState) :
    estimatedMeans bs = bs.map (fun p => p.1 / (p.1 + p.2)) :=
  zipWith_map_same _ _ _ bs

theorem length_totalsOf (bs : BeliefState) : (totalsOf bs).length = bs.length := by
  simp [totalsOf]

theorem length_estimatedMeans (bs : BeliefState) :
    (estimatedMeans bs).length = bs.length := by
  simp [estimatedMeans_eq_map]

theorem length_updateNth {α : Type} :
    ∀ (l : List α) (i : ℕ) (f : α → α), (updateNth l i f).length = l.length
  | [], _, _ => rfl
  | _ :: _, 0, _ => rfl
  | x :: xs, n + 1, f => by simp [updateNth, length_updateNth xs n f]

theorem getD_updateNth_ne {α : Type} :
    ∀ (l : List α) (i j : ℕ) (f : α → α) (d : α), j ≠ i →
      (updateNth l i f).getD j d = l.getD j d
  | [], _, _, _, _, _ => rfl
  | x :: xs, 0, 0, f, d, h => absurd rfl h
  | x :: xs, 0, j + 1, f, d, _ => by simp [updateNth]
  | x :: xs, i + 1, 0, f, d, _ => by simp [updateNth]
  | x :: xs, i + 1, j + 1, f, d, h => by
    simp only [updateNth, List.getD_cons_succ]
    exact getD_updateNth_ne xs i j f d (by omega)

theorem getD_updateNth_eq {α : Type} :
    ∀ (l : List α) (i : ℕ) (f : α → α) (d : α), i < l.length →
      (updateNth l i f).getD i d = f (l.getD i d)
  | [], i, _, _, h => by simp at h
  | x :: xs, 0, f, d, _ => rfl
  | x :: xs, i + 1, f, d, h => by
    simp only [updateNth, List.getD_cons_succ]
    exact getD_updateNth_eq xs i f d (by simpa using h)

/-! ## Helper theorems: the episode runner -/

theorem beliefsAfter_length (tr : List (List Bool)) (f : ℕ → BeliefState → ℕ)
    (bs0 : BeliefState) : ∀ n, (beliefsAfter tr f bs0 n).length = bs0.length := by
  intro n
  induction n with
  | zero => rfl
  | succ n ih => simp [beliefsAfter, pullStep, length_updateNth, ih]

/-- Both belief entries stay at least `1` forever, with no assumption on
the policy's output range (an out-of-range index leaves the state
unchanged). -/
theorem belief_entries_ge_one (tr : List (List Bool)) (f : ℕ → BeliefState → ℕ) (K : ℕ) :
    ∀ n k, k < K →
      1 ≤ ((beliefsAfter tr f (initialBeliefs K) n).getD k (0, 0)).1 ∧
      1 ≤ ((beliefsAfter tr f (initialBeliefs K) n).getD k (0, 0)).2 := by
  intro n
  induction n with
  | zero =>
    intro k hk
    rw [beliefsAfter, initialBeliefs, getD_replicate_lt _ _ K k hk]
    exact ⟨le_refl 1, le_refl 1⟩
  | succ n ih =>
    intro k hk
    have hlen : (beliefsAfter tr f (initialBeliefs K) n).length = K := by
      rw [beliefsAfter_length, initialBeliefs, List.length_replicate]
    set prev := beliefsAfter tr f (initialBeliefs K) n with hprev
    have hstep : beliefsAfter tr f (initialBeliefs K) (n + 1) = pullStep tr f n prev := rfl
    rw [hstep]
    simp only [pullStep]
    by_cases hkc : k = f n prev
    · subst hkc
      rw [getD_updateNth_eq _ _ _ _ (by rw [hlen]; exact hk)]
      rcases ih _ hk with ⟨h1, h2⟩
      by_cases hr : (tr.getD n []).getD (f n prev) false
      · rw [if_pos hr]
        exact ⟨by dsimp only; linarith, h2⟩
      · rw [if_neg hr]
        exact ⟨h1, by dsimp only; linarith⟩
    · rw [getD_updateNth_ne _ _ _ _ _ hkc]
      exact ih k hk

theorem pullCount_succ (tr : List (List Bool)) (f : ℕ → BeliefState → ℕ) (K k n : ℕ) :
    pullCount tr f K k (n + 1) =
      pullCount tr f K k n + (if choiceAt tr f K n = k then 1 else 0) := by
  unfold pullCount
  rw [List.range_succ, List.filter_append, List.length_append]
  by_cases h : choiceAt tr f K n = k <;> simp [h]

/-- Row sum = pull count + prior mass. -/
theorem belief_row_sum (tr : List (List Bool)) (f : ℕ → BeliefState → ℕ) (K : ℕ) :
    ∀ n k, k < K →
      ((beliefsAfter tr f (initialBeliefs K) n).getD k (0, 0)).1 +
        ((beliefsAfter tr f (initialBeliefs K) n).getD k (0, 0)).2 =
        (pullCount tr f K k n : ℚ) + 2 := by
  intro n
  induction n with
  | zero =>
    intro k hk
    rw [beliefsAfter, initialBeliefs, getD_replicate_lt _ _ K k hk]
    simp [pullCount]
    norm_num
  | succ n ih =>
    intro k hk
    have hlen : (beliefsAfter tr f (initialBeliefs K) n).length = K := by
      rw [beliefsAfter_length, initialBeliefs, List.length_replicate]
    set prev := beliefsAfter tr f (initialBeliefs K) n with hprev
    have hstep : beliefsAfter tr f (initialBeliefs K) (n + 1) = pullStep tr f n prev := rfl
    have hchoice : choiceAt tr f K n = f n prev := rfl
    rw [hstep, pullCount_succ, hchoice]
    simp only [pullStep]
    by_cases hkc : k = f n prev
    · subst hkc
      rw [getD_updateNth_eq _ _ _ _ (by rw [hlen]; exact hk)]
      rw [if_pos rfl]
      have hsum := ih _ hk
      by_cases hr : (tr.getD n []).getD (f n prev) false
      · rw [if_pos hr]
        push_cast
        linarith
      · rw [if_neg hr]
        push_cast
        linarith
    · rw [getD_updateNth_ne _ _ _ _ _ hkc]
      rw [if_neg (fun hc => hkc hc.symm)]
      simpa using ih k hk

/-! ## Helper theorems: the epsilon-greedy resampling loop -/

theorem egLoop_ne_best (randInts : ℕ → ℕ) (best : ℕ) :
    ∀ (fuel pos c : ℕ), egLoop randInts best pos fuel = some c → c ≠ best := by
  intro fuel
  induction fuel with
  | zero => intro pos c h; simp [egLoop] at h
  | succ n ih =>
    intro pos c h
    simp only [egLoop] at h
    by_cases hc : randInts pos = best
    · rw [if_pos hc] at h
      exact ih (pos + 1) c h
    · rw [if_neg hc] at h
      cases h
      exact hc

theorem egLoop_mem_stream (randInts : ℕ → ℕ) (best : ℕ) :
    ∀ (fuel pos c : ℕ), egLoop randInts best pos fuel = some c → ∃ q, c = randInts q := by
  intro fuel
  induction fuel with
  | zero => intro pos c h; simp [egLoop] at h
  | succ n ih =>
    intro pos c h
    simp only [egLoop] at h
    by_cases hc : randInts pos = best
    · rw [if_pos hc] at h
      exact ih (pos + 1) c h
    · rw [if_neg hc] at h
      cases h
      exact ⟨pos, rfl⟩

theorem egLoop_none_of_always_best (randInts : ℕ → ℕ) (best : ℕ)
    (hall : ∀ i, randInts i = best) :
    ∀ fuel pos, egLoop randInts best pos fuel = none := by
  intro fuel
  induction fuel with
  | zero => intro pos; rfl
  | succ n ih =>
    intro pos
    simp only [egLoop, if_pos (hall pos)]
    exact ih (pos + 1)

theorem egLoop_terminates (randInts : ℕ → ℕ) (best : ℕ) :
    ∀ (d pos : ℕ), randInts (pos + d) ≠ best →
      ∃ c, egLoop randInts best pos (d + 1) = some c ∧ c ≠ best := by
  intro d
  induction d with
  | zero =>
    intro pos h
    rw [Nat.add_zero] at h
    exact ⟨randInts pos, by simp [egLoop, if_neg h], h⟩
  | succ d ih =>
    intro pos h
    by_cases hc : randInts pos = best
    · obtain ⟨c, hc', hne⟩ := ih (pos + 1)
        (by have he : pos + 1 + d = pos + (d + 1) := by omega
            rw [he]; exact h)
      exact ⟨c, by simp only [egLoop, if_pos hc]; exact hc', hne⟩
    · exact ⟨randInts pos, by simp only [egLoop, if_neg hc], hc⟩

/-! ## Helper theorems: the god-regret signal -/

theorem runFrom_god_eq (tr : List (List Bool)) (CTRs : List (List ℚ))
    (f : ℕ → BeliefState → ℕ) (best_val : ℚ) (bi : ℕ) :
    ∀ (fuel i : ℕ) (bs : BeliefState),
      (runFrom tr CTRs f best_val bi i fuel bs).2.2 =
        List.zipWith (fun j c => godSignal (tr.getD j []) bi c)
          (List.range' i fuel) (runFrom tr CTRs f best_val bi i fuel bs).1 := by
  intro fuel
  induction fuel with
  | zero => intro i bs; rfl
  | succ n ih =>
    intro i bs
    rw [List.range'_succ]
    simp only [runFrom, List.zipWith_cons_cons]
    refine congrArg₂ _ ?_ (ih (i + 1) (pullStep tr f i bs))
    unfold godSignal
    rcases hb : (tr.getD i []).getD bi false <;>
      rcases hr : (tr.getD i []).getD (f i bs) false <;>
      simp [hb, hr]

theorem map_ext_fun {α β : Type} (f g : α → β) (h : ∀ x, f x = g x) :
    ∀ l : List α, l.map f = l.map g
  | [] => rfl
  | x :: xs => by simp only [List.map_cons, h x, map_ext_fun f g h xs]

theorem argmax_lt_of_length (l : List ℚ) (K : ℕ) (hl : l.length = K) (hK : 1 ≤ K) :
    argmax l < K := by
  have hne : l ≠ [] := List.length_pos.mp (by omega)
  have := (argmax_spec l hne).1
  omega

theorem argmin_lt_of_length (l : List ℚ) (K : ℕ) (hl : l.length = K) (hK : 1 ≤ K) :
    argmin l < K := by
  have hne : l ≠ [] := List.length_pos.mp (by omega)
  have := (argmin_spec l hne).1
  omega

/-! ## Claims -/

/-- C3: for every belief state, while any arm's total is below the
exploration budget the Naive policy returns the least-pulled arm (ties
broken by first occurrence in index order, as by an argmin scan), and
otherwise it deterministically returns the arm with the highest empirical
success rate (first occurrence), never exploring again. -/
theorem C3_naive_explore_then_commit (bs : BeliefState) (budget : ℚ) (hbs : bs ≠ []) :
    ((totalsOf bs).any (fun t => decide (t < budget)) = true →
      naive bs budget = argmin (totalsOf bs) ∧
      naive bs budget < bs.length ∧
      (∀ j, j < bs.length →
        (totalsOf bs).getD (naive bs budget) 0 ≤ (totalsOf bs).getD j 0) ∧
      (∀ j, j < naive bs budget →
        (totalsOf bs).getD (naive bs budget) 0 < (totalsOf bs).getD j 0)) ∧
    ((totalsOf bs).any (fun t => decide (t < budget)) = false →
      naive bs budget = argmax (estimatedMeans bs) ∧
      naive bs budget < bs.length ∧
      (∀ j, j < bs.length →
        (estimatedMeans bs).getD j 0 ≤ (estimatedMeans bs).getD (naive bs budget) 0) ∧
      (∀ j, j < naive bs budget →
        (estimatedMeans bs).getD j 0 < (estimatedMeans bs).getD (naive bs budget) 0)) := by
  have htne : totalsOf bs ≠ [] := fun hc => hbs (by simpa [totalsOf] using hc)
  have hmne : estimatedMeans bs ≠ [] :=
    fun hc => hbs (by simpa [estimatedMeans_eq_map] using hc)
  constructor
  · intro hany
    have heq : naive bs budget = argmin (totalsOf bs) := by
      simp [naive, hany]
    obtain ⟨hb, hmin, hfirst⟩ := argmin_spec (totalsOf bs) htne
    rw [heq]
    exact ⟨rfl, by rwa [length_totalsOf] at hb,
      fun j hj => hmin j (by rwa [length_totalsOf]), hfirst⟩
  · intro hany
    have heq : naive bs budget = argmax (estimatedMeans bs) := by
      simp [naive, hany]
    obtain ⟨hb, hmax, hfirst⟩ := argmax_spec (estimatedMeans bs) hmne
    rw [heq]
    exact ⟨rfl, by rwa [length_estimatedMeans] at hb,
      fun j hj => hmax j (by rwa [length_estimatedMeans]), hfirst⟩

/-- Witness for C3 at a concrete belief state (totals below the budget,
so the exploration branch applies). -/
theorem C3_witness :
    naive [((1:ℚ), (1:ℚ)), (2, 1)] 100 = argmin (totalsOf [((1:ℚ), (1:ℚ)), (2, 1)]) :=
  ((C3_naive_explore_then_commit [((1:ℚ), (1:ℚ)), (2, 1)] 100 (by decide)).1
    (by norm_num [totalsOf])).1

/-- C5: for every belief state and every sqrt/log collaborator, the
UCB-Tuned policy selects the arm maximizing
`mean + sqrt(min(variance + sqrt(2·ln(t)/n_k), 0.25) · ln(t)/n_k)` with
`variance = mean − mean²`, `n_k` the arm's total from the belief state and
`t` the belief-state total over all arms. -/
theorem C5_ucb_tuned_formula (sq lg : ℚ → ℚ) (bs : BeliefState) :
    UCB sq lg bs = argmax (ucbTunedSpecScores sq lg bs) := by
  simp only [UCB, ucbTunedSpecScores]
  rw [estimatedMeans_eq_map]
  unfold totalsOf
  rw [zipWith_map_same]
  refine congrArg argmax (map_ext_fun _ _ (fun p => ?_) bs)
  congr 1
  congr 1
  ring

/-- C6: epsilon_greedy with epsilon = 0 never takes the exploration
branch and returns the arm of highest empirical mean; whenever the
exploration branch is taken, the returned arm differs from the current
best-mean arm. -/
theorem C6_epsilon_greedy_contract (bs : BeliefState) (randR : ℚ)
    (randInts : ℕ → ℕ) (fuel : ℕ) (h0 : 0 ≤ randR) :
    (epsilon_greedy bs 0 randR randInts fuel =
        some (argmax (estimatedMeans bs)) ∧
      (∀ j, j < bs.length →
        (estimatedMeans bs).getD j 0 ≤
          (estimatedMeans bs).getD (argmax (estimatedMeans bs)) 0)) ∧
    (∀ (epsilon : ℚ) (c : ℕ), randR < epsilon →
      epsilon_greedy bs epsilon randR randInts fuel = some c →
      c ≠ argmax (estimatedMeans bs)) := by
  refine ⟨⟨?_, ?_⟩, ?_⟩
  · simp only [epsilon_greedy]
    rw [if_neg (not_lt.mpr h0)]
  · intro j hj
    by_cases hbs : bs = []
    · subst hbs; simp at hj
    · have hmne : estimatedMeans bs ≠ [] :=
        fun hc => hbs (by simpa [estimatedMeans_eq_map] using hc)
      exact (argmax_spec (estimatedMeans bs) hmne).2.1 j
        (by rwa [length_estimatedMeans])
  · intro epsilon c hlt heq
    simp only [epsilon_greedy] at heq
    rw [if_pos hlt] at heq
    exact egLoop_ne_best randInts _ fuel 0 c heq

/-- Witness for C6: epsilon = 0 at a concrete belief state. -/
theorem C6_witness :
    epsilon_greedy [((1:ℚ), (1:ℚ)), (2, 1)] 0 0 (fun _ => 0) 1 =
      some (argmax (estimatedMeans [((1:ℚ), (1:ℚ)), (2, 1)])) :=
  ((C6_epsilon_greedy_contract [((1:ℚ), (1:ℚ)), (2, 1)] 0 (fun _ => 0) 1
    (le_refl 0)).1).1

/-- C8: for every K×2 belief state with K ≥ 1 and every draw stream
respecting the `randint(0, K)` contract, each of the six policies returns
an arm index in [0, K). -/
theorem C8_policies_in_range (K : ℕ) (hK : 1 ≤ K) (bs : BeliefState)
    (hbs : bs.length = K)
    (randint : ℕ → ℕ) (hrandint : ∀ n, 0 < n → randint n < n)
    (randInts : ℕ → ℕ) (hrandInts : ∀ i, randInts i < K)
    (rbeta : ℚ → ℚ → ℚ) (sq lg : ℚ → ℚ) (epsilon randR budget : ℚ) (fuel : ℕ) :
    random randint bs < K ∧
    naive bs budget < K ∧
    (∀ c, epsilon_greedy bs epsilon randR randInts fuel = some c → c < K) ∧
    UCB sq lg bs < K ∧
    UCB_bernoulli sq bs < K ∧
    thompson_sampling rbeta bs < K := by
  have hmlen : (estimatedMeans bs).length = K := by rw [length_estimatedMeans, hbs]
  have htlen : (totalsOf bs).length = K := by rw [length_totalsOf, hbs]
  refine ⟨?_, ?_, ?_, ?_, ?_, ?_⟩
  · simp only [random, hbs]
    exact hrandint K (by omega)
  · simp only [naive]
    by_cases hany : (totalsOf bs).any (fun t => decide (t < budget)) = true
    · rw [if_pos hany]
      exact argmin_lt_of_length _ K htlen hK
    · rw [if_neg hany]
      exact argmax_lt_of_length _ K hmlen hK
  · intro c heq
    simp only [epsilon_greedy] at heq
    by_cases hexp : randR < epsilon
    · rw [if_pos hexp] at heq
      obtain ⟨q, rfl⟩ := egLoop_mem_stream randInts _ fuel 0 c heq
      exact hrandInts q
    · rw [if_neg hexp] at heq
      cases heq
      exact argmax_lt_of_length _ K hmlen hK
  · simp only [UCB]
    refine argmax_lt_of_length _ K ?_ hK
    rw [List.length_zipWith, hmlen, htlen, Nat.min_self]
  · simp only [UCB_bernoulli]
    refine argmax_lt_of_length _ K ?_ hK
    rw [List.length_zipWith, hmlen, htlen, Nat.min_self]
  · simp only [thompson_sampling]
    refine argmax_lt_of_length _ K ?_ hK
    rw [List.length_map, hbs]

/-- Witness for C8 at K = 2 with concrete oracles. -/
theorem C8_witness :
    random (fun _ => 0) [((1:ℚ), (1:ℚ)), (2, 1)] < 2 ∧
    naive [((1:ℚ), (1:ℚ)), (2, 1)] 100 < 2 ∧
    UCB (fun q => q) (fun q => q) [((1:ℚ), (1:ℚ)), (2, 1)] < 2 ∧
    UCB_bernoulli (fun q => q) [((1:ℚ), (1:ℚ)), (2, 1)] < 2 ∧
    thompson_sampling (fun a _ => a) [((1:ℚ), (1:ℚ)), (2, 1)] < 2 := by
  have h := C8_policies_in_range 2 (by omega) [((1:ℚ), (1:ℚ)), (2, 1)] rfl
    (fun _ => 0) (fun _ hn => hn) (fun _ => 0) (fun _ => Nat.zero_lt_two)
    (fun a _ => a) (fun q => q) (fun q => q) 0 0 100 1
  exact ⟨h.1, h.2.1, h.2.2.2.1, h.2.2.2.2.1, h.2.2.2.2.2⟩

/-- C10: with a single arm every resampling draw equals the single best
index, so the exploration branch never terminates whatever the fuel;
with a draw stream that eventually yields an index different from the
best-mean arm, the resampling loop does terminate. -/
theorem C10_eg_resampling_termination :
    (∀ (randInts : ℕ → ℕ) (bs : BeliefState) (epsilon randR : ℚ) (fuel : ℕ),
        (∀ i, randInts i < 1) → bs.length = 1 → randR < epsilon →
        epsilon_greedy bs epsilon randR randInts fuel = none) ∧
    (∀ (randInts : ℕ → ℕ) (best pos n : ℕ), pos ≤ n → randInts n ≠ best →
        (egLoop randInts best pos (n - pos + 1)).isSome = true) := by
  constructor
  · intro randInts bs epsilon randR fuel hr hlen hlt
    obtain ⟨p, rfl⟩ := List.length_eq_one.mp hlen
    simp only [epsilon_greedy]
    rw [if_pos hlt]
    have hbest : argmax (estimatedMeans [p]) = 0 := rfl
    rw [hbest]
    exact egLoop_none_of_always_best randInts 0 (fun i => by have := hr i; omega) fuel 0
  · intro randInts best pos n hle hne
    obtain ⟨c, hc, _⟩ := egLoop_terminates randInts best (n - pos) pos
      (by have he : pos + (n - pos) = n := by omega
          rw [he]; exact hne)
    rw [hc]
    rfl

/-- Witness for C10: concrete non-terminating and terminating runs. -/
theorem C10_witness :
    epsilon_greedy [((1:ℚ), (1:ℚ))] 1 0 (fun _ => 0) 5 = none ∧
    (egLoop (fun i => i + 1) 0 0 (0 - 0 + 1)).isSome = true :=
  ⟨C10_eg_resampling_termination.1 (fun _ => 0) [((1:ℚ), (1:ℚ))] 1 0 5
      (fun _ => Nat.one_pos) rfl (by norm_num),
    C10_eg_resampling_termination.2 (fun i => i + 1) 0 0 0 (le_refl 0) (by decide)⟩

/-- C2: the sequence the episode runner returns is exactly the running
cumulative sum of the per-round realized ±1 oracle signal over all
`num_samples` rounds, and it is not the classical expected-regret sequence
computed alongside (shown by a concrete run where the two differ). -/
theorem C2_returned_regret_is_god_cumsum (tr : List (List Bool))
    (CTRs : List (List ℚ)) (f : ℕ → BeliefState → ℕ) :
    (run_bandit_dynamic_alg tr CTRs f =
      cumsum (List.zipWith
        (fun j c => godSignal (tr.getD j []) (argmax (colMax CTRs)) c)
        (List.range tr.length) (episodeChoices tr CTRs f))) ∧
    run_bandit_dynamic_alg [[false, false]] [[(3:ℚ)/4, 1/4]] (fun _ _ => 1) ≠
      episodeRegret [[false, false]] [[(3:ℚ)/4, 1/4]] (fun _ _ => 1) := by
  constructor
  · simp only [run_bandit_dynamic_alg, episodeChoices, episodeOut]
    rw [List.range_eq_range']
    exact congrArg cumsum (runFrom_god_eq tr CTRs f
      ((colMax CTRs).getD (argmax (colMax CTRs)) 0) (argmax (colMax CTRs))
      tr.length 0 (initialBeliefs (tr.headD []).length))
  · norm_num [run_bandit_dynamic_alg, episodeRegret, episodeOut, runFrom, pullStep,
      colMax, argmax, argmaxFrom, initialBeliefs, cumsum, cumsumFrom, List.getD]

/-- C4: at every point of an episode, both entries of every belief row are
at least the prior value 1, the row sum equals pulls-of-that-arm + 2, and
each round changes exactly the success (on reward 1) or failure (on
reward 0) entry of the chosen arm's row by +1, leaving all other rows
unchanged. -/
theorem C4_belief_state_invariant (tr : List (List Bool)) (f : ℕ → BeliefState → ℕ)
    (K : ℕ) (hf : ∀ i bs, f i bs < K) :
    ∀ n,
      (∀ k, k < K →
        1 ≤ ((beliefsAfter tr f (initialBeliefs K) n).getD k (0, 0)).1 ∧
        1 ≤ ((beliefsAfter tr f (initialBeliefs K) n).getD k (0, 0)).2 ∧
        ((beliefsAfter tr f (initialBeliefs K) n).getD k (0, 0)).1 +
          ((beliefsAfter tr f (initialBeliefs K) n).getD k (0, 0)).2 =
          (pullCount tr f K k n : ℚ) + 2) ∧
      (∀ j, j ≠ choiceAt tr f K n →
        (beliefsAfter tr f (initialBeliefs K) (n + 1)).getD j (0, 0) =
          (beliefsAfter tr f (initialBeliefs K) n).getD j (0, 0)) ∧
      ((tr.getD n []).getD (choiceAt tr f K n) false = true →
        (beliefsAfter tr f (initialBeliefs K) (n + 1)).getD (choiceAt tr f K n) (0, 0) =
          (((beliefsAfter tr f (initialBeliefs K) n).getD (choiceAt tr f K n) (0, 0)).1 + 1,
            ((beliefsAfter tr f (initialBeliefs K) n).getD (choiceAt tr f K n) (0, 0)).2)) ∧
      ((tr.getD n []).getD (choiceAt tr f K n) false = false →
        (beliefsAfter tr f (initialBeliefs K) (n + 1)).getD (choiceAt tr f K n) (0, 0) =
          (((beliefsAfter tr f (initialBeliefs K) n).getD (choiceAt tr f K n) (0, 0)).1,
            ((beliefsAfter tr f (initialBeliefs K) n).getD (choiceAt tr f K n) (0, 0)).2 + 1)) := by
  intro n
  have hlen : (beliefsAfter tr f (initialBeliefs K) n).length = K := by
    rw [beliefsAfter_length, initialBeliefs, List.length_replicate]
  have hchoice : choiceAt tr f K n = f n (beliefsAfter tr f (initialBeliefs K) n) := rfl
  have hclt : f n (beliefsAfter tr f (initialBeliefs K) n) <
      (beliefsAfter tr f (initialBeliefs K) n).length := by
    rw [hlen]; exact hf n _
  refine ⟨fun k hk => ⟨(belief_entries_ge_one tr f K n k hk).1,
    (belief_entries_ge_one tr f K n k hk).2, belief_row_sum tr f K n k hk⟩, ?_, ?_, ?_⟩
  · intro j hj
    simp only [beliefsAfter, pullStep]
    exact getD_updateNth_ne _ _ _ _ _ hj
  · intro hrew
    rw [hchoice] at hrew ⊢
    simp only [beliefsAfter, pullStep]
    rw [getD_updateNth_eq _ _ _ _ hclt]
    rw [if_pos hrew]
  · intro hrew
    rw [hchoice] at hrew ⊢
    simp only [beliefsAfter, pullStep]
    rw [getD_updateNth_eq _ _ _ _ hclt]
    rw [if_neg (by rw [hrew]; exact Bool.false_ne_true)]

/-- Witness for C4: the invariant after one round of a concrete episode. -/
theorem C4_witness :
    1 ≤ ((beliefsAfter [[true]] (fun _ _ => 0) (initialBeliefs 1) 1).getD 0 (0, 0)).1 ∧
    1 ≤ ((beliefsAfter [[true]] (fun _ _ => 0) (initialBeliefs 1) 1).getD 0 (0, 0)).2 ∧
    ((beliefsAfter [[true]] (fun _ _ => 0) (initialBeliefs 1) 1).getD 0 (0, 0)).1 +
      ((beliefsAfter [[true]] (fun _ _ => 0) (initialBeliefs 1) 1).getD 0 (0, 0)).2 =
      (pullCount [[true]] (fun _ _ => 0) 1 0 1 : ℚ) + 2 :=
  (C4_belief_state_invariant [[true]] (fun _ _ => 0) 1 (fun _ _ => Nat.one_pos) 1).1
    0 Nat.one_pos

/-- C7: in every reachable belief state (prior initialization plus
increments), every arm's successes-plus-failures total — the divisor of
every mean and variance computation — is strictly positive. -/
theorem C7_divisors_positive (tr : List (List Bool)) (f : ℕ → BeliefState → ℕ)
    (K n k : ℕ) (hk : k < K) :
    0 < (totalsOf (beliefsAfter tr f (initialBeliefs K) n)).getD k 0 := by
  have hlen : (beliefsAfter tr f (initialBeliefs K) n).length = K := by
    rw [beliefsAfter_length, initialBeliefs, List.length_replicate]
  unfold totalsOf
  rw [getD_map_lt (fun p => p.1 + p.2) (beliefsAfter tr f (initialBeliefs K) n) k
    (by rw [hlen]; exact hk) 0 ((0 : ℚ), (0 : ℚ))]
  rcases belief_entries_ge_one tr f K n k hk with ⟨h1, h2⟩
  linarith

/-- Witness for C7 after one round of a concrete episode. -/
theorem C7_witness :
    0 < (totalsOf (beliefsAfter [[true]] (fun _ _ => 0) (initialBeliefs 1) 1)).getD 0 0 :=
  C7_divisors_positive [[true]] (fun _ _ => 0) 1 1 0 Nat.one_pos

/-- C9: two runs of the episode runner with identical reward matrix,
identical CTR matrix and pointwise-identical policy (same random draws)
produce identical chosen-arm sequences and identical returned regret
sequences. -/
theorem C9_episode_determinism (tr₁ tr₂ : List (List Bool))
    (CTRs₁ CTRs₂ : List (List ℚ)) (f₁ f₂ : ℕ → BeliefState → ℕ)
    (htr : tr₁ = tr₂) (hC : CTRs₁ = CTRs₂) (hf : ∀ i bs, f₁ i bs = f₂ i bs) :
    episodeChoices tr₁ CTRs₁ f₁ = episodeChoices tr₂ CTRs₂ f₂ ∧
    run_bandit_dynamic_alg tr₁ CTRs₁ f₁ = run_bandit_dynamic_alg tr₂ CTRs₂ f₂ := by
  subst htr
  subst hC
  have hff : f₁ = f₂ := funext fun i => funext fun bs => hf i bs
  subst hff
  exact ⟨rfl, rfl⟩

/-- Witness for C9 at a concrete episode. -/
theorem C9_witness :
    episodeChoices [[true]] [[(1:ℚ)/2]] (fun _ _ => 0) =
      episodeChoices [[true]] [[(1:ℚ)/2]] (fun _ _ => 0) ∧
    run_bandit_dynamic_alg [[true]] [[(1:ℚ)/2]] (fun _ _ => 0) =
      run_bandit_dynamic_alg [[true]] [[(1:ℚ)/2]] (fun _ _ => 0) :=
  C9_episode_determinism [[true]] [[true]] [[(1:ℚ)/2]] [[(1:ℚ)/2]]
    (fun _ _ => 0) (fun _ _ => 0) rfl rfl (fun _ _ => rfl)

theorem driverLoop_ctr_fixed (tape : ℕ → ℚ) (ns K : ℕ) (C : List (List ℚ))
    (policies : List (ℕ → BeliefState → ℕ)) (consume : ℕ → ℕ) :
    ∀ (n pos : ℕ) e, e ∈ driverLoop tape ns K C policies consume n pos →
      e.1 = C ∧ e.2.2 = policies.map (fun p => run_bandit_dynamic_alg e.2.1 e.1 p) := by
  intro n
  induction n with
  | zero => intro pos e he; simp [driverLoop] at he
  | succ n ih =>
    intro pos e he
    simp only [driverLoop, List.mem_cons] at he
    rcases he with he | he
    · subst he
      exact ⟨rfl, rfl⟩
    · exact ih _ e he

/-- C1 (counterexample): with the tape `n ↦ 1/(n+2)` (all draws distinct),
one-round one-arm experiments: the code's driver gives experiments 0 and 1
the same CTR matrix `[[1/2]]`, while the per-experiment-fresh driver the
claim describes gives them the distinct matrices `[[1/2]]` and `[[1/4]]`;
in particular the code does not generate a fresh arm-probability vector
per experiment. -/
theorem C1_counterexample :
    ((mabExperiments (fun n => (1:ℚ)/(n + 2)) 1 1 2 [] (fun _ => 0)).map
        (fun e => e.1) ≠
      (freshDriverLoop (fun n => (1:ℚ)/(n + 2)) 1 1 [] (fun _ => 0) 2 0).map
        (fun e => e.1)) ∧
    (mabExperiments (fun n => (1:ℚ)/(n + 2)) 1 1 2 [] (fun _ => 0)).map
        (fun e => e.1) = [[[(1:ℚ)/2]], [[(1:ℚ)/2]]] ∧
    (freshDriverLoop (fun n => (1:ℚ)/(n + 2)) 1 1 [] (fun _ => 0) 2 0).map
        (fun e => e.1) = [[[(1:ℚ)/2]], [[(1:ℚ)/4]]] := by
  refine ⟨?_, ?_, ?_⟩
  · norm_num [mabExperiments, freshDriverLoop, driverLoop,
      generate_bernoulli_bandit_data, randMatrix, randVec,
      List.range_succ, List.range_zero]
  · norm_num [mabExperiments, driverLoop, generate_bernoulli_bandit_data,
      randMatrix, randVec, List.range_succ, List.range_zero]
  · norm_num [freshDriverLoop, generate_bernoulli_bandit_data,
      randMatrix, randVec, List.range_succ, List.range_zero]

/-- C1 (amended): the arm-probability vector is drawn once at module
initialization; every experiment uses that same vector (tiled constant
across rounds), and within each experiment all policies run against that
experiment's single reward matrix and the shared CTR matrix. -/
theorem C1_ctr_shared_across_experiments (tape : ℕ → ℚ)
    (num_samples K number_experiments : ℕ)
    (policies : List (ℕ → BeliefState → ℕ)) (consume : ℕ → ℕ) :
    ∀ e ∈ mabExperiments tape num_samples K number_experiments policies consume,
      e.1 = List.replicate num_samples (randVec tape 0 K).1 ∧
      (∀ row ∈ e.1, row = (randVec tape 0 K).1) ∧
      e.2.2 = policies.map (fun p => run_bandit_dynamic_alg e.2.1 e.1 p) := by
  intro e he
  simp only [mabExperiments] at he
  obtain ⟨h1, h2⟩ := driverLoop_ctr_fixed tape num_samples K _ policies consume
    number_experiments _ e he
  refine ⟨h1, ?_, h2⟩
  rw [h1]
  intro row hrow
  exact List.eq_of_mem_replicate hrow

/-- Witness for C1 (amended) at a concrete one-experiment run. -/
theorem C1_witness :
    ([[(1:ℚ)/2]], [[true]], ([] : List (List ℚ))).1 =
      List.replicate 1 (randVec (fun n => (1:ℚ)/(n + 2)) 0 1).1 :=
  (C1_ctr_shared_across_experiments (fun n => (1:ℚ)/(n + 2)) 1 1 1 [] (fun _ => 0)
    ([[(1:ℚ)/2]], [[true]], ([] : List (List ℚ)))
    (by norm_num [mabExperiments, driverLoop, generate_bernoulli_bandit_data,
      randMatrix, randVec, List.range_succ, List.range_zero])).1

end Bandit
